import Mathlib

/-!
Verification of the wire-message codec and signer in `messages.go`
(gophernotes): frame scanning, HMAC-SHA256 signing/verification,
JSON (de)serialization of composed messages, response building and
dispatch. Byte sequences are modelled as `List Nat` with values kept
below 256; machine words use explicit `% 2^32`.
-/

namespace Gophernotes

/-- ASCII bytes of a string literal (all literals used are ASCII). -/
def strBytes (s : String) : List Nat :=
  s.data.map Char.toNat

/-- The delimiter frame content, the literal ASCII token of `messages.go`. -/
def delimiterBytes : List Nat := strBytes "<IDS|MSG>"

/-! ## Hex encoding/decoding (`encoding/hex`) -/

/-- Lowercase hex digit character code for a nibble, as `encoding/hex` emits. -/
def hexDigitChar (n : Nat) : Nat :=
  if n < 10 then n + 48 else n + 87

/-- `hex.Encode`: each byte becomes two lowercase hex digit characters. -/
def encodeHex : List Nat → List Nat
  | [] => []
  | b :: rest => hexDigitChar (b / 16) :: hexDigitChar (b % 16) :: encodeHex rest

/-- `hex.Decode`'s digit table: value of one hex character, if valid. -/
def fromHexChar (c : Nat) : Option Nat :=
  if 48 ≤ c ∧ c ≤ 57 then some (c - 48)
  else if 97 ≤ c ∧ c ≤ 102 then some (c - 97 + 10)
  else if 65 ≤ c ∧ c ≤ 70 then some (c - 65 + 10)
  else none

/-- `hex.Decode` as called in `WireMsgToComposedMsg`: the destination is
allocated with `hex.DecodedLen` zero bytes; decoding fills byte pairs until
the first invalid character (the error is discarded by the caller), leaving
the remaining destination bytes zero. -/
def decodeHexGo : List Nat → List Nat
  | a :: b :: rest =>
    match fromHexChar a, fromHexChar b with
    | some x, some y => (x * 16 + y) :: decodeHexGo rest
    | _, _ => List.replicate ((a :: b :: rest).length / 2) 0
  | _ => []

theorem encodeHex_length (bs : List Nat) : (encodeHex bs).length = 2 * bs.length := by
  induction bs with
  | nil => rfl
  | cons b rest ih =>
    simp only [encodeHex, List.length_cons, ih]
    omega

theorem fromHexChar_hexDigitChar {n : Nat} (h : n < 16) :
    fromHexChar (hexDigitChar n) = some n := by
  by_cases h1 : n < 10
  · simp only [hexDigitChar, if_pos h1, fromHexChar]
    rw [if_pos (by omega)]
    simp
  · simp only [hexDigitChar, if_neg h1, fromHexChar]
    rw [if_neg (by omega), if_pos (by omega)]
    congr 1
    omega

theorem decodeHexGo_encodeHex {bs : List Nat} (h : ∀ b ∈ bs, b < 256) :
    decodeHexGo (encodeHex bs) = bs := by
  induction bs with
  | nil => rfl
  | cons b rest ih =>
    have hb : b < 256 := h b (by simp)
    have h1 : b / 16 < 16 := by omega
    have h2 : b % 16 < 16 := by omega
    rw [encodeHex, decodeHexGo]
    rw [fromHexChar_hexDigitChar h1, fromHexChar_hexDigitChar h2]
    show (b / 16 * 16 + b % 16) :: decodeHexGo (encodeHex rest) = b :: rest
    have hbv : b / 16 * 16 + b % 16 = b := by omega
    rw [hbv, ih (fun x hx => h x (List.mem_cons_of_mem _ hx))]

/-! ## SHA-256 (`crypto/sha256`) -/

/-- Truncation to a 32-bit word. -/
def w32 (n : Nat) : Nat := n % 4294967296

/-- Right rotation of a 32-bit word. -/
def rotr32 (x n : Nat) : Nat := w32 ((x >>> n) ||| (x <<< (32 - n)))

/-- The eight working registers / hash state of SHA-256. -/
structure Hash8 where
  r0 : Nat
  r1 : Nat
  r2 : Nat
  r3 : Nat
  r4 : Nat
  r5 : Nat
  r6 : Nat
  r7 : Nat

/-- SHA-256 initial hash value. -/
def sha256H0 : Hash8 :=
  ⟨1779033703, 3144134277, 1013904242, 2773480762,
   1359893119, 2600822924, 528734635, 1541459225⟩

/-- SHA-256 round constants. -/
def sha256K : List Nat :=
  [1116352408, 1899447441, 3049323471, 3921009573,
   961987163, 1508970993, 2453635748, 2870763221,
   3624381080, 310598401, 607225278, 1426881987,
   1925078388, 2162078206, 2614888103, 3248222580,
   3835390401, 4022224774, 264347078, 604807628,
   770255983, 1249150122, 1555081692, 1996064986,
   2554220882, 2821834349, 2952996808, 3210313671,
   3336571891, 3584528711, 113926993, 338241895,
   666307205, 773529912, 1294757372, 1396182291,
   1695183700, 1986661051, 2177026350, 2456956037,
   2730485921, 2820302411, 3259730800, 3345764771,
   3516065817, 3600352804, 4094571909, 275423344,
   430227734, 506948616, 659060556, 883997877,
   958139571, 1322822218, 1537002063, 1747873779,
   1955562222, 2024104815, 2227730452, 2361852424,
   2428436474, 2756734187, 3204031479, 3329325298]

/-- Big-endian 8-byte encoding of the 64-bit bit length. -/
def be64 (n : Nat) : List Nat :=
  [n >>> 56 % 256, n >>> 48 % 256, n >>> 40 % 256, n >>> 32 % 256,
   n >>> 24 % 256, n >>> 16 % 256, n >>> 8 % 256, n % 256]

/-- SHA-256 message padding: a 0x80 byte, zeros to 56 mod 64, then the
bit length as a big-endian 64-bit integer. -/
def sha256pad (msg : List Nat) : List Nat :=
  msg ++ 128 :: List.replicate ((120 - (msg.length + 1) % 64) % 64) 0
      ++ be64 (8 * msg.length)

/-- Split into 64-byte blocks (fuel-indexed for structural recursion). -/
def toBlocksAux : Nat → List Nat → List (List Nat)
  | 0, _ => []
  | _, [] => []
  | fuel + 1, l => l.take 64 :: toBlocksAux fuel (l.drop 64)

def toBlocks (l : List Nat) : List (List Nat) := toBlocksAux l.length l

/-- Big-endian 32-bit words from bytes. -/
def bytesToWords : List Nat → List Nat
  | b0 :: b1 :: b2 :: b3 :: rest =>
    (((b0 * 256 + b1) * 256 + b2) * 256 + b3) :: bytesToWords rest
  | _ => []

/-- One message-schedule extension step: append `W[t]` computed from
`W[t-2]`, `W[t-7]`, `W[t-15]`, `W[t-16]`. -/
def scheduleStep (ws : List Nat) : List Nat :=
  let t := ws.length
  let s0 :=
    let x := ws.getD (t - 15) 0
    rotr32 x 7 ^^^ rotr32 x 18 ^^^ (x >>> 3)
  let s1 :=
    let x := ws.getD (t - 2) 0
    rotr32 x 17 ^^^ rotr32 x 19 ^^^ (x >>> 10)
  ws ++ [w32 (ws.getD (t - 16) 0 + s0 + ws.getD (t - 7) 0 + s1)]

def extendSchedule : Nat → List Nat → List Nat
  | 0, ws => ws
  | n + 1, ws => extendSchedule n (scheduleStep ws)

/-- One SHA-256 compression round with constant `k` and schedule word `w`. -/
def roundStep (k w : Nat) (s : Hash8) : Hash8 :=
  let S1 := rotr32 s.r4 6 ^^^ rotr32 s.r4 11 ^^^ rotr32 s.r4 25
  let ch := (s.r4 &&& s.r5) ^^^ ((s.r4 ^^^ 4294967295) &&& s.r6)
  let temp1 := w32 (s.r7 + S1 + ch + k + w)
  let S0 := rotr32 s.r0 2 ^^^ rotr32 s.r0 13 ^^^ rotr32 s.r0 22
  let maj := (s.r0 &&& s.r1) ^^^ (s.r0 &&& s.r2) ^^^ (s.r1 &&& s.r2)
  let temp2 := w32 (S0 + maj)
  ⟨w32 (temp1 + temp2), s.r0, s.r1, s.r2, w32 (s.r3 + temp1), s.r4, s.r5, s.r6⟩

def rounds : List (Nat × Nat) → Hash8 → Hash8
  | [], s => s
  | (k, w) :: rest, s => rounds rest (roundStep k w s)

/-- Compress one 64-byte block into the running hash state. -/
def sha256Block (h : Hash8) (block : List Nat) : Hash8 :=
  let ws := extendSchedule 48 (bytesToWords block)
  let s := rounds (sha256K.zip ws) h
  ⟨w32 (h.r0 + s.r0), w32 (h.r1 + s.r1), w32 (h.r2 + s.r2), w32 (h.r3 + s.r3),
   w32 (h.r4 + s.r4), w32 (h.r5 + s.r5), w32 (h.r6 + s.r6), w32 (h.r7 + s.r7)⟩

/-- Big-endian bytes of one 32-bit word. -/
def wordBytes (w : Nat) : List Nat :=
  [w >>> 24 % 256, w >>> 16 % 256, w >>> 8 % 256, w % 256]

def hash8Bytes (h : Hash8) : List Nat :=
  [h.r0, h.r1, h.r2, h.r3, h.r4, h.r5, h.r6, h.r7].flatMap wordBytes

/-- SHA-256 digest of a byte sequence. -/
def sha256 (msg : List Nat) : List Nat :=
  hash8Bytes ((toBlocks (sha256pad msg)).foldl sha256Block sha256H0)

theorem hash8Bytes_length (h : Hash8) : (hash8Bytes h).length = 32 := rfl

theorem sha256_length (msg : List Nat) : (sha256 msg).length = 32 :=
  hash8Bytes_length _

theorem wordBytes_lt (w : Nat) : ∀ b ∈ wordBytes w, b < 256 := by
  intro b hb
  simp only [wordBytes, List.mem_cons, List.not_mem_nil, or_false] at hb
  rcases hb with rfl | rfl | rfl | rfl <;> exact Nat.mod_lt _ (by norm_num)

theorem sha256_lt (msg : List Nat) : ∀ b ∈ sha256 msg, b < 256 := by
  intro b hb
  simp only [sha256, hash8Bytes, List.mem_flatMap] at hb
  obtain ⟨w, -, hw⟩ := hb
  exact wordBytes_lt w b hw

/-! ## HMAC (`crypto/hmac`, block size 64) -/

/-- HMAC key normalization: hash keys longer than the block size, then
zero-pad to the block size. -/
def hmacKeyNorm (key : List Nat) : List Nat :=
  let k := if 64 < key.length then sha256 key else key
  k ++ List.replicate (64 - k.length) 0

/-- HMAC-SHA256. The MAC in `WireMsgToComposedMsg`/`ToWireMsg` is written
the four signed-region frames in sequence, which hashes their
concatenation. -/
def hmacSha256 (key msg : List Nat) : List Nat :=
  let k := hmacKeyNorm key
  sha256 ((k.map (fun b => b ^^^ 92)) ++ sha256 ((k.map (fun b => b ^^^ 54)) ++ msg))

theorem hmacSha256_length (key msg : List Nat) : (hmacSha256 key msg).length = 32 :=
  sha256_length _

theorem hmacSha256_lt (key msg : List Nat) : ∀ b ∈ hmacSha256 key msg, b < 256 :=
  sha256_lt _

/-- `crypto/subtle.ConstantTimeCompare` as used by `hmac.Equal`: equal
lengths and a zero OR-accumulation of byte XORs. -/
def constantTimeCompare (x y : List Nat) : Bool :=
  if x.length = y.length then
    decide ((x.zip y).foldl (fun acc p => acc ||| (p.1 ^^^ p.2)) 0 = 0)
  else false

theorem nat_or_eq_zero_iff (x y : Nat) : x ||| y = 0 ↔ x = 0 ∧ y = 0 := by
  constructor
  · intro h
    constructor
    · apply Nat.zero_of_testBit_eq_false
      intro i
      have hb : (x ||| y).testBit i = false := by simp [h]
      rw [Nat.testBit_or] at hb
      exact (Bool.or_eq_false_iff.mp hb).1
    · apply Nat.zero_of_testBit_eq_false
      intro i
      have hb : (x ||| y).testBit i = false := by simp [h]
      rw [Nat.testBit_or] at hb
      exact (Bool.or_eq_false_iff.mp hb).2
  · rintro ⟨rfl, rfl⟩
    rfl

theorem foldl_or_xor_eq_zero (l : List (Nat × Nat)) (v : Nat) :
    l.foldl (fun acc p => acc ||| (p.1 ^^^ p.2)) v = 0 ↔
      v = 0 ∧ ∀ p ∈ l, p.1 = p.2 := by
  induction l generalizing v with
  | nil => simp
  | cons p rest ih =>
    rw [List.foldl_cons, ih, nat_or_eq_zero_iff]
    constructor
    · rintro ⟨⟨hv, hx⟩, hrest⟩
      refine ⟨hv, ?_⟩
      intro q hq
      rcases List.mem_cons.mp hq with rfl | hq'
      · exact Nat.xor_eq_zero.mp hx
      · exact hrest q hq'
    · rintro ⟨hv, hall⟩
      refine ⟨⟨hv, Nat.xor_eq_zero.mpr (hall p (List.mem_cons_self _ _))⟩, ?_⟩
      intro q hq
      exact hall q (List.mem_cons_of_mem _ hq)

theorem zip_pointwise_eq : ∀ {x y : List Nat}, x.length = y.length →
    (∀ p ∈ x.zip y, p.1 = p.2) → x = y := by
  intro x
  induction x with
  | nil =>
    intro y h _
    cases y with
    | nil => rfl
    | cons b ys => simp at h
  | cons a xs ih =>
    intro y hlen hall
    cases y with
    | nil => simp at hlen
    | cons b ys =>
      have h1 : a = b := hall (a, b) (by simp [List.zip_cons_cons])
      have h2 : xs = ys := ih (by simpa using hlen)
        (fun p hp => hall p (by simp [List.zip_cons_cons, hp]))
      rw [h1, h2]

theorem zip_self_pointwise : ∀ (x : List Nat) (p : Nat × Nat), p ∈ x.zip x → p.1 = p.2 := by
  intro x
  induction x with
  | nil => simp
  | cons a xs ih =>
    intro p hp
    rw [List.zip_cons_cons, List.mem_cons] at hp
    rcases hp with rfl | hp'
    · rfl
    · exact ih p hp'

theorem constantTimeCompare_iff (x y : List Nat) :
    constantTimeCompare x y = true ↔ x = y := by
  unfold constantTimeCompare
  split
  case isTrue hlen =>
    rw [decide_eq_true_iff, foldl_or_xor_eq_zero]
    constructor
    · rintro ⟨-, h⟩
      exact zip_pointwise_eq hlen h
    · rintro rfl
      exact ⟨rfl, zip_self_pointwise x⟩
  case isFalse hlen =>
    constructor
    · intro h
      simp at h
    · rintro rfl
      exact absurd rfl hlen

/-! ## JSON values (`encoding/json`)

Frames carry JSON text. We model JSON values with mutual inductives
(`JsonList`/`JsonObj` are the element and member lists), serialize them the
way `encoding/json` does (no added whitespace, HTML characters escaped,
object members in the stored order), and parse with a fuel-indexed
recursive-descent parser. Model restrictions: numbers are integers and
inter-token whitespace is not accepted. -/

mutual
inductive Json where
  | null : Json
  | bool : Bool → Json
  | num : Int → Json
  | str : List Nat → Json
  | arr : JsonList → Json
  | obj : JsonObj → Json
deriving DecidableEq
inductive JsonList where
  | nil : JsonList
  | cons : Json → JsonList → JsonList
deriving DecidableEq
inductive JsonObj where
  | nil : JsonObj
  | cons : List Nat → Json → JsonObj → JsonObj
deriving DecidableEq
end

/-- `encoding/json` string escaping for one character: quote, backslash,
newline, carriage return and tab get two-character escapes, other control
characters and the HTML characters get a `\u00XX` escape, everything else
is emitted as-is. -/
def escapeChar (c : Nat) : List Nat :=
  if c = 34 then [92, 34]
  else if c = 92 then [92, 92]
  else if c = 10 then [92, 110]
  else if c = 13 then [92, 114]
  else if c = 9 then [92, 116]
  else if c < 32 ∨ c = 38 ∨ c = 60 ∨ c = 62 then
    [92, 117, 48, 48, hexDigitChar (c / 16), hexDigitChar (c % 16)]
  else [c]

def printStrBody : List Nat → List Nat
  | [] => []
  | c :: rest => escapeChar c ++ printStrBody rest

/-- A JSON string literal: quote, escaped body, quote. -/
def printStr (s : List Nat) : List Nat := 34 :: (printStrBody s ++ [34])

/-- Decimal digits of a natural number, most significant first. -/
def printNat (n : Nat) : List Nat :=
  if n = 0 then [48] else (Nat.digits 10 n).reverse.map (fun d => d + 48)

def printInt : Int → List Nat
  | .ofNat n => printNat n
  | .negSucc n => 45 :: printNat (n + 1)

mutual
def printJson : Json → List Nat
  | .null => [110, 117, 108, 108]
  | .bool true => [116, 114, 117, 101]
  | .bool false => [102, 97, 108, 115, 101]
  | .num n => printInt n
  | .str s => printStr s
  | .arr xs => 91 :: (printArrBody xs ++ [93])
  | .obj kvs => 123 :: (printObjBody kvs ++ [125])
def printArrBody : JsonList → List Nat
  | .nil => []
  | .cons x tl => printJson x ++ printArrTail tl
def printArrTail : JsonList → List Nat
  | .nil => []
  | .cons x tl => 44 :: (printJson x ++ printArrTail tl)
def printObjBody : JsonObj → List Nat
  | .nil => []
  | .cons k v tl => printStr k ++ 58 :: (printJson v ++ printObjTail tl)
def printObjTail : JsonObj → List Nat
  | .nil => []
  | .cons k v tl => 44 :: (printStr k ++ 58 :: (printJson v ++ printObjTail tl))
end

-- Fuel measure for the parser adequacy proof.
mutual
def jsize : Json → Nat
  | .null => 1
  | .bool _ => 1
  | .num _ => 1
  | .str _ => 1
  | .arr xs => 1 + jsizeList xs
  | .obj kvs => 1 + jsizeObj kvs
def jsizeList : JsonList → Nat
  | .nil => 0
  | .cons x tl => 1 + jsize x + jsizeList tl
def jsizeObj : JsonObj → Nat
  | .nil => 0
  | .cons _ v tl => 1 + jsize v + jsizeObj tl
end

def isDigit (c : Nat) : Bool := decide (48 ≤ c ∧ c ≤ 57)

/-- Four hex digits of a `\uXXXX` escape. -/
def hex4 : List Nat → Option (Nat × List Nat)
  | d1 :: d2 :: d3 :: d4 :: r =>
    match fromHexChar d1, fromHexChar d2, fromHexChar d3, fromHexChar d4 with
    | some a, some b, some x, some y => some ((((a * 16 + b) * 16 + x) * 16 + y), r)
    | _, _, _, _ => none
  | _ => none

/-- One escape sequence after a backslash. -/
def parseEscape : List Nat → Option (Nat × List Nat)
  | [] => none
  | e :: r =>
    if e = 34 then some (34, r)
    else if e = 92 then some (92, r)
    else if e = 47 then some (47, r)
    else if e = 98 then some (8, r)
    else if e = 102 then some (12, r)
    else if e = 110 then some (10, r)
    else if e = 114 then some (13, r)
    else if e = 116 then some (9, r)
    else if e = 117 then hex4 r
    else none

/-- String body after the opening quote, up to the closing quote. -/
def parseStrBody : Nat → List Nat → Option (List Nat × List Nat)
  | 0, _ => none
  | fuel + 1, input =>
    match input with
    | [] => none
    | c :: r =>
      if c = 34 then some ([], r)
      else if c = 92 then
        match parseEscape r with
        | some (e, r1) => (parseStrBody fuel r1).map (fun p => (e :: p.1, p.2))
        | none => none
      else (parseStrBody fuel r).map (fun p => (c :: p.1, p.2))

def digitsVal (l : List Nat) : Nat := l.foldl (fun a c => a * 10 + (c - 48)) 0

/-- An integer literal: optional minus sign, then one or more digits. -/
def parseNum (input : List Nat) : Option (Int × List Nat) :=
  match input with
  | [] => none
  | c :: r =>
    if c = 45 then
      let ds := r.takeWhile isDigit
      if ds = [] then none else some (-(digitsVal ds : Int), r.dropWhile isDigit)
    else
      let ds := (c :: r).takeWhile isDigit
      if ds = [] then none else some ((digitsVal ds : Int), (c :: r).dropWhile isDigit)

mutual
def parseVal : Nat → List Nat → Option (Json × List Nat)
  | 0, _ => none
  | _ + 1, [] => none
  | fuel + 1, c :: r =>
      if c = 110 then
        match r with
        | 117 :: 108 :: 108 :: r1 => some (.null, r1)
        | _ => none
      else if c = 116 then
        match r with
        | 114 :: 117 :: 101 :: r1 => some (.bool true, r1)
        | _ => none
      else if c = 102 then
        match r with
        | 97 :: 108 :: 115 :: 101 :: r1 => some (.bool false, r1)
        | _ => none
      else if c = 34 then
        (parseStrBody (r.length + 1) r).map (fun p => (.str p.1, p.2))
      else if c = 91 then
        match r with
        | [] => none
        | c1 :: r1 =>
          if c1 = 93 then some (.arr .nil, r1)
          else (parseArrItems fuel (c1 :: r1)).map (fun p => (.arr p.1, p.2))
      else if c = 123 then
        match r with
        | [] => none
        | c1 :: r1 =>
          if c1 = 125 then some (.obj .nil, r1)
          else (parseObjItems fuel (c1 :: r1)).map (fun p => (.obj p.1, p.2))
      else (parseNum (c :: r)).map (fun p => (.num p.1, p.2))

def parseArrItems : Nat → List Nat → Option (JsonList × List Nat)
  | 0, _ => none
  | fuel + 1, input =>
    match parseVal fuel input with
    | none => none
    | some (v, r) =>
      match r with
      | [] => none
      | c :: r1 =>
        if c = 44 then (parseArrItems fuel r1).map (fun p => (.cons v p.1, p.2))
        else if c = 93 then some (.cons v .nil, r1)
        else none

def parseObjItems : Nat → List Nat → Option (JsonObj × List Nat)
  | 0, _ => none
  | _ + 1, [] => none
  | fuel + 1, c :: r =>
      if c = 34 then
        match parseStrBody (r.length + 1) r with
        | none => none
        | some (k, r1) =>
          match r1 with
          | [] => none
          | c1 :: r2 =>
            if c1 = 58 then
              match parseVal fuel r2 with
              | none => none
              | some (v, r3) =>
                match r3 with
                | [] => none
                | c2 :: r4 =>
                  if c2 = 44 then (parseObjItems fuel r4).map (fun p => (.cons k v p.1, p.2))
                  else if c2 = 125 then some (.cons k v .nil, r4)
                  else none
            else none
      else none
end

/-- `json.Unmarshal`'s syntactic layer: parse the whole input as one JSON
value with no trailing data. -/
def parseJson (input : List Nat) : Option Json :=
  match parseVal (input.length + 1) input with
  | some (v, []) => some v
  | _ => none

/-! ## Parse-of-print inverse lemmas -/

/-- The remainder after a printed token in a printed context is empty or
starts with a separator/closer, never with a digit. -/
def restSafe (l : List Nat) : Bool :=
  match l with
  | [] => true
  | c :: _ => !(isDigit c)

theorem escapeChar_length_pos (c : Nat) : 1 ≤ (escapeChar c).length := by
  unfold escapeChar
  split_ifs <;> simp

theorem printStrBody_length (s : List Nat) : s.length ≤ (printStrBody s).length := by
  induction s with
  | nil => simp [printStrBody]
  | cons c rest ih =>
    simp only [printStrBody, List.length_append, List.length_cons]
    have := escapeChar_length_pos c
    omega

theorem hex4_hexDigitChar (h1 h2 : Nat) (hh1 : h1 < 16) (hh2 : h2 < 16) (r : List Nat) :
    hex4 (48 :: 48 :: hexDigitChar h1 :: hexDigitChar h2 :: r) = some (h1 * 16 + h2, r) := by
  rw [hex4]
  rw [show fromHexChar 48 = some 0 from rfl,
      fromHexChar_hexDigitChar hh1, fromHexChar_hexDigitChar hh2]
  norm_num

theorem parseEscape_u (h1 h2 : Nat) (hh1 : h1 < 16) (hh2 : h2 < 16) (r : List Nat) :
    parseEscape (117 :: 48 :: 48 :: hexDigitChar h1 :: hexDigitChar h2 :: r) =
      some (h1 * 16 + h2, r) := by
  rw [parseEscape]
  norm_num
  exact hex4_hexDigitChar h1 h2 hh1 hh2 r

theorem parseStrBody_step (f : Nat) (c : Nat) (t : List Nat) :
    parseStrBody (f + 1) (escapeChar c ++ t) =
      (parseStrBody f t).map (fun p => (c :: p.1, p.2)) := by
  unfold escapeChar
  split_ifs with h1 h2 h3 h4 h5 h6
  · subst h1; simp [parseStrBody, parseEscape]
  · subst h2; simp [parseStrBody, parseEscape]
  · subst h3; simp [parseStrBody, parseEscape]
  · subst h4; simp [parseStrBody, parseEscape]
  · subst h5; simp [parseStrBody, parseEscape]
  · have hc : c < 256 := by
      rcases h6 with h | h | h | h <;> omega
    have hq : c / 16 < 16 := by omega
    have hrm : c % 16 < 16 := by omega
    simp only [List.cons_append, List.nil_append]
    rw [parseStrBody]
    rw [if_neg (by norm_num), if_pos rfl]
    rw [parseEscape_u _ _ hq hrm]
    have hv : c / 16 * 16 + c % 16 = c := by omega
    rw [hv]
  · rw [List.singleton_append, parseStrBody]
    rw [if_neg h1, if_neg h2]

theorem parseStrBody_print : ∀ (fuel : Nat) (s rest : List Nat), s.length < fuel →
    parseStrBody fuel (printStrBody s ++ (34 :: rest)) = some (s, rest) := by
  intro fuel
  induction fuel with
  | zero => intro s rest h; exact absurd h (by omega)
  | succ f ih =>
    intro s rest h
    cases s with
    | nil =>
      show parseStrBody (f + 1) (34 :: rest) = _
      simp [parseStrBody]
    | cons c s2 =>
      rw [printStrBody, List.append_assoc, parseStrBody_step]
      rw [ih s2 rest (by simp only [List.length_cons] at h; omega)]
      rfl

theorem isDigit_eq_true {c : Nat} (h1 : 48 ≤ c) (h2 : c ≤ 57) : isDigit c = true := by
  simp [isDigit]
  omega

theorem takeWhile_append_not {p : Nat → Bool} : ∀ (l rest : List Nat),
    (∀ c ∈ l, p c = true) → (∀ c, rest.head? = some c → p c = false) →
    (l ++ rest).takeWhile p = l ∧ (l ++ rest).dropWhile p = rest := by
  intro l
  induction l with
  | nil =>
    intro rest _ hrest
    cases rest with
    | nil => simp
    | cons c r =>
      have hc := hrest c rfl
      simp [List.takeWhile_cons, List.dropWhile_cons, hc]
  | cons a l2 ih =>
    intro rest hall hrest
    have ha : p a = true := hall a (List.mem_cons_self _ _)
    obtain ⟨h1, h2⟩ := ih rest (fun c hc => hall c (List.mem_cons_of_mem _ hc)) hrest
    simp [List.takeWhile_cons, List.dropWhile_cons, ha, h1, h2]

theorem foldl_base10 (l : List Nat) (acc : Nat) :
    l.reverse.foldl (fun a d => a * 10 + d) acc = acc * 10 ^ l.length + Nat.ofDigits 10 l := by
  induction l generalizing acc with
  | nil => simp
  | cons d l2 ih =>
    simp only [List.reverse_cons, List.foldl_append, List.foldl_cons, List.foldl_nil,
      ih, Nat.ofDigits_cons, List.length_cons]
    ring

theorem digitsVal_printNat (n : Nat) : digitsVal (printNat n) = n := by
  unfold printNat
  split_ifs with h0
  · subst h0; rfl
  · unfold digitsVal
    rw [List.foldl_map]
    have hfun : (fun (a : Nat) (d : Nat) => a * 10 + (d + 48 - 48)) =
        (fun (a : Nat) (d : Nat) => a * 10 + d) := by
      funext a d
      omega
    rw [hfun, foldl_base10]
    simp [Nat.ofDigits_digits]

theorem printNat_digits (n : Nat) : ∀ c ∈ printNat n, isDigit c = true := by
  intro c hc
  unfold printNat at hc
  split_ifs at hc with h0
  · simp at hc
    subst hc
    rfl
  · simp only [List.mem_map, List.mem_reverse] at hc
    obtain ⟨d, hd, rfl⟩ := hc
    have hlt : d < 10 := Nat.digits_lt_base (by norm_num) hd
    exact isDigit_eq_true (by omega) (by omega)

theorem printNat_ne_nil (n : Nat) : printNat n ≠ [] := by
  unfold printNat
  split_ifs with h0
  · simp
  · simp only [ne_eq, List.map_eq_nil_iff, List.reverse_eq_nil_iff]
    exact Nat.digits_ne_nil_iff_ne_zero.mpr h0

theorem head_not_digit_of_restSafe {rest : List Nat} (h : restSafe rest = true) :
    ∀ c, rest.head? = some c → isDigit c = false := by
  intro c hc
  cases rest with
  | nil => simp at hc
  | cons a t =>
    simp only [List.head?_cons, Option.some.injEq] at hc
    subst hc
    simpa [restSafe] using h

theorem parseNum_print (n : Int) (rest : List Nat) (hrest : restSafe rest = true) :
    parseNum (printInt n ++ rest) = some (n, rest) := by
  have hr := head_not_digit_of_restSafe hrest
  cases n with
  | ofNat m =>
    obtain ⟨c, t, hct⟩ : ∃ c t, printNat m = c :: t := by
      cases hpm : printNat m with
      | nil => exact absurd hpm (printNat_ne_nil m)
      | cons c t => exact ⟨c, t, rfl⟩
    have hdig := printNat_digits m
    obtain ⟨htake, hdrop⟩ := takeWhile_append_not (printNat m) rest hdig hr
    show parseNum (printNat m ++ rest) = _
    have hc : isDigit c = true := hdig c (hct ▸ List.mem_cons_self _ _)
    have hc45 : ¬ (c = 45) := by
      simp only [isDigit, decide_eq_true_eq] at hc
      omega
    rw [hct] at htake hdrop ⊢
    rw [List.cons_append] at htake hdrop
    simp only [List.cons_append, parseNum, if_neg hc45]
    simp only [htake, hdrop]
    rw [if_neg (by simp)]
    rw [← hct, digitsVal_printNat]
    rfl
  | negSucc m =>
    have hdig := printNat_digits (m + 1)
    obtain ⟨htake, hdrop⟩ := takeWhile_append_not (printNat (m + 1)) rest hdig hr
    show parseNum (45 :: (printNat (m + 1) ++ rest)) = _
    rw [parseNum]
    rw [if_pos rfl]
    simp only [htake, hdrop]
    rw [if_neg (printNat_ne_nil (m + 1))]
    rw [digitsVal_printNat]
    congr 1

theorem printNat_cons (m : Nat) : ∃ c t, printNat m = c :: t := by
  cases hpm : printNat m with
  | nil => exact absurd hpm (printNat_ne_nil m)
  | cons c t => exact ⟨c, t, rfl⟩

theorem printInt_head (n : Int) :
    ∃ c t, printInt n = c :: t ∧ (c = 45 ∨ (48 ≤ c ∧ c ≤ 57)) := by
  cases n with
  | ofNat m =>
    obtain ⟨c, t, hct⟩ := printNat_cons m
    have hc : isDigit c = true := printNat_digits m c (hct ▸ List.mem_cons_self _ _)
    simp only [isDigit, decide_eq_true_eq] at hc
    exact ⟨c, t, hct, Or.inr hc⟩
  | negSucc m => exact ⟨45, printNat (m + 1), rfl, Or.inl rfl⟩

theorem printJson_cons (v : Json) :
    ∃ c t, printJson v = c :: t ∧ c ≠ 93 ∧ c ≠ 125 ∧ c ≠ 44 := by
  cases v with
  | null => exact ⟨110, _, rfl, by norm_num, by norm_num, by norm_num⟩
  | bool b =>
    cases b
    · exact ⟨102, _, rfl, by norm_num, by norm_num, by norm_num⟩
    · exact ⟨116, _, rfl, by norm_num, by norm_num, by norm_num⟩
  | num n =>
    obtain ⟨c, t, hct, hcd⟩ := printInt_head n
    refine ⟨c, t, hct, ?_, ?_, ?_⟩ <;> rcases hcd with rfl | ⟨h1, h2⟩ <;> omega
  | str s => exact ⟨34, _, rfl, by norm_num, by norm_num, by norm_num⟩
  | arr xs => exact ⟨91, _, rfl, by norm_num, by norm_num, by norm_num⟩
  | obj kvs => exact ⟨123, _, rfl, by norm_num, by norm_num, by norm_num⟩

theorem restSafe_arrSep (tl : JsonList) (rest : List Nat) :
    restSafe (printArrTail tl ++ (93 :: rest)) = true := by
  cases tl with
  | nil => rfl
  | cons x tl2 => rfl

theorem restSafe_objSep (tl : JsonObj) (rest : List Nat) :
    restSafe (printObjTail tl ++ (125 :: rest)) = true := by
  cases tl with
  | nil => rfl
  | cons k v tl2 => rfl

theorem parseVal_null (f : Nat) (r : List Nat) :
    parseVal (f + 1) (110 :: 117 :: 108 :: 108 :: r) = some (.null, r) := by
  simp [parseVal]

theorem parseVal_true (f : Nat) (r : List Nat) :
    parseVal (f + 1) (116 :: 114 :: 117 :: 101 :: r) = some (.bool true, r) := by
  simp [parseVal]

theorem parseVal_false (f : Nat) (r : List Nat) :
    parseVal (f + 1) (102 :: 97 :: 108 :: 115 :: 101 :: r) = some (.bool false, r) := by
  simp [parseVal]

theorem parseVal_str (f : Nat) (r : List Nat) :
    parseVal (f + 1) (34 :: r) =
      (parseStrBody (r.length + 1) r).map (fun p => (.str p.1, p.2)) := by
  simp [parseVal]

theorem parseVal_num (f : Nat) (c : Nat) (r : List Nat)
    (hcd : c = 45 ∨ (48 ≤ c ∧ c ≤ 57)) :
    parseVal (f + 1) (c :: r) = (parseNum (c :: r)).map (fun p => (.num p.1, p.2)) := by
  have h1 : ¬ (c = 110) := by rcases hcd with rfl | ⟨h1, h2⟩ <;> omega
  have h2 : ¬ (c = 116) := by rcases hcd with rfl | ⟨h1, h2⟩ <;> omega
  have h3 : ¬ (c = 102) := by rcases hcd with rfl | ⟨h1, h2⟩ <;> omega
  have h4 : ¬ (c = 34) := by rcases hcd with rfl | ⟨h1, h2⟩ <;> omega
  have h5 : ¬ (c = 91) := by rcases hcd with rfl | ⟨h1, h2⟩ <;> omega
  have h6 : ¬ (c = 123) := by rcases hcd with rfl | ⟨h1, h2⟩ <;> omega
  simp only [parseVal]
  rw [if_neg h1, if_neg h2, if_neg h3, if_neg h4, if_neg h5, if_neg h6]

theorem parseVal_arr_nil (f : Nat) (r : List Nat) :
    parseVal (f + 1) (91 :: 93 :: r) = some (.arr .nil, r) := by
  simp [parseVal]

theorem parseVal_arr_cons (f : Nat) (c1 : Nat) (r1 : List Nat) (h : ¬ (c1 = 93)) :
    parseVal (f + 1) (91 :: c1 :: r1) =
      (parseArrItems f (c1 :: r1)).map (fun p => (.arr p.1, p.2)) := by
  simp [parseVal.eq_def, h]

theorem parseVal_obj_nil (f : Nat) (r : List Nat) :
    parseVal (f + 1) (123 :: 125 :: r) = some (.obj .nil, r) := by
  simp [parseVal]

theorem parseVal_obj_cons (f : Nat) (c1 : Nat) (r1 : List Nat) (h : ¬ (c1 = 125)) :
    parseVal (f + 1) (123 :: c1 :: r1) =
      (parseObjItems f (c1 :: r1)).map (fun p => (.obj p.1, p.2)) := by
  simp [parseVal.eq_def, h]

theorem parseArrItems_step (f : Nat) (input : List Nat) (v : Json) (c : Nat) (r1 : List Nat)
    (h : parseVal f input = some (v, c :: r1)) :
    parseArrItems (f + 1) input =
      ((if c = 44 then (parseArrItems f r1).map (fun p => (JsonList.cons v p.1, p.2))
        else if c = 93 then some (JsonList.cons v JsonList.nil, r1)
        else none) : Option (JsonList × List Nat)) := by
  rw [parseArrItems, h]

theorem parseObjItems_step (f : Nat) (r : List Nat) (k : List Nat) (r2 : List Nat)
    (hk : parseStrBody (r.length + 1) r = some (k, 58 :: r2))
    (v : Json) (c2 : Nat) (r4 : List Nat)
    (hv : parseVal f r2 = some (v, c2 :: r4)) :
    parseObjItems (f + 1) (34 :: r) =
      ((if c2 = 44 then (parseObjItems f r4).map (fun p => (JsonObj.cons k v p.1, p.2))
        else if c2 = 125 then some (JsonObj.cons k v JsonObj.nil, r4)
        else none) : Option (JsonObj × List Nat)) := by
  rw [parseObjItems]
  rw [if_pos rfl, hk]
  show (if (58 : Nat) = 58 then
      (match parseVal f r2 with
       | none => none
       | some (v, r3) =>
         match r3 with
         | [] => none
         | c2 :: r4 =>
           if c2 = 44 then (parseObjItems f r4).map (fun p => (JsonObj.cons k v p.1, p.2))
           else if c2 = 125 then some (JsonObj.cons k v JsonObj.nil, r4)
           else none)
    else none) = _
  rw [if_pos rfl, hv]

theorem jsize_pos (v : Json) : 1 ≤ jsize v := by
  cases v <;> simp [jsize]

theorem parse_print_all : ∀ fuel : Nat,
    (∀ (v : Json) (rest : List Nat), jsize v ≤ fuel → restSafe rest = true →
      parseVal fuel (printJson v ++ rest) = some (v, rest)) ∧
    (∀ (xs : JsonList) (rest : List Nat), xs ≠ JsonList.nil → jsizeList xs ≤ fuel →
      parseArrItems fuel (printArrBody xs ++ (93 :: rest)) = some (xs, rest)) ∧
    (∀ (kvs : JsonObj) (rest : List Nat), kvs ≠ JsonObj.nil → jsizeObj kvs ≤ fuel →
      parseObjItems fuel (printObjBody kvs ++ (125 :: rest)) = some (kvs, rest)) := by
  intro fuel
  induction fuel with
  | zero =>
    refine ⟨fun v rest hj _ => ?_, fun xs rest hne hj => ?_, fun kvs rest hne hj => ?_⟩
    · exact absurd hj (by have := jsize_pos v; omega)
    · cases xs with
      | nil => exact absurd rfl hne
      | cons x tl => simp only [jsizeList] at hj; omega
    · cases kvs with
      | nil => exact absurd rfl hne
      | cons k v2 tl => simp only [jsizeObj] at hj; omega
  | succ f ih =>
    obtain ⟨ihV, ihA, ihO⟩ := ih
    refine ⟨fun v rest hj hrest => ?_, fun xs rest hne hj => ?_, fun kvs rest hne hj => ?_⟩
    · cases v with
      | null =>
        show parseVal (f + 1) ([110, 117, 108, 108] ++ rest) = _
        simp only [List.cons_append, List.nil_append]
        exact parseVal_null f rest
      | bool b =>
        cases b
        · show parseVal (f + 1) ([102, 97, 108, 115, 101] ++ rest) = _
          simp only [List.cons_append, List.nil_append]
          exact parseVal_false f rest
        · show parseVal (f + 1) ([116, 114, 117, 101] ++ rest) = _
          simp only [List.cons_append, List.nil_append]
          exact parseVal_true f rest
      | num n =>
        obtain ⟨c, t, hct, hcd⟩ := printInt_head n
        show parseVal (f + 1) (printInt n ++ rest) = _
        rw [hct, List.cons_append, parseVal_num f c _ hcd, ← List.cons_append, ← hct,
          parseNum_print n rest hrest]
        rfl
      | str s =>
        show parseVal (f + 1) ((34 :: (printStrBody s ++ [34])) ++ rest) = _
        rw [List.cons_append, parseVal_str, List.append_assoc, List.singleton_append]
        rw [parseStrBody_print _ s rest
          (by have h1 := printStrBody_length s
              simp only [List.length_append, List.length_cons]
              omega)]
        rfl
      | arr xs =>
        cases xs with
        | nil =>
          show parseVal (f + 1) ((91 :: ([] ++ [93])) ++ rest) = _
          simp only [List.nil_append, List.cons_append]
          exact parseVal_arr_nil f rest
        | cons x tl =>
          obtain ⟨c1, t1, hc1, h93, _, _⟩ := printJson_cons x
          have hg : printJson (Json.arr (JsonList.cons x tl)) ++ rest =
              91 :: (printJson x ++ (printArrTail tl ++ (93 :: rest))) := by
            show (91 :: ((printJson x ++ printArrTail tl) ++ [93])) ++ rest = _
            simp [List.append_assoc]
          have harr : printJson x ++ (printArrTail tl ++ (93 :: rest)) =
              printArrBody (JsonList.cons x tl) ++ (93 :: rest) := by
            show _ = (printJson x ++ printArrTail tl) ++ (93 :: rest)
            simp [List.append_assoc]
          rw [hg, hc1, List.cons_append, parseVal_arr_cons f c1 _ h93, ← List.cons_append,
            ← hc1, harr, ihA _ rest (by simp) (by simp only [jsize] at hj; omega)]
          rfl
      | obj kvs =>
        cases kvs with
        | nil =>
          show parseVal (f + 1) ((123 :: ([] ++ [125])) ++ rest) = _
          simp only [List.nil_append, List.cons_append]
          exact parseVal_obj_nil f rest
        | cons k v2 tl =>
          have hg : printJson (Json.obj (JsonObj.cons k v2 tl)) ++ rest =
              123 :: (printObjBody (JsonObj.cons k v2 tl) ++ (125 :: rest)) := by
            show (123 :: (printObjBody (JsonObj.cons k v2 tl) ++ [125])) ++ rest = _
            simp [List.append_assoc]
          have hcons : printObjBody (JsonObj.cons k v2 tl) ++ (125 :: rest) =
              34 :: (printStrBody k ++
                (34 :: (58 :: (printJson v2 ++ (printObjTail tl ++ (125 :: rest)))))) := by
            show ((34 :: (printStrBody k ++ [34])) ++
                (58 :: (printJson v2 ++ printObjTail tl))) ++ (125 :: rest) = _
            simp [List.append_assoc]
          rw [hg, hcons, parseVal_obj_cons f 34 _ (by norm_num), ← hcons,
            ihO _ rest (by simp) (by simp only [jsize] at hj; omega)]
          rfl
    · cases xs with
      | nil => exact absurd rfl hne
      | cons x tl =>
        have hx : jsize x ≤ f := by simp only [jsizeList] at hj; omega
        have hshape : printArrBody (JsonList.cons x tl) ++ (93 :: rest) =
            printJson x ++ (printArrTail tl ++ (93 :: rest)) := by
          show (printJson x ++ printArrTail tl) ++ (93 :: rest) = _
          simp [List.append_assoc]
        rw [hshape]
        have hv := ihV x (printArrTail tl ++ (93 :: rest)) hx (restSafe_arrSep tl rest)
        cases tl with
        | nil =>
          rw [parseArrItems_step f _ x 93 rest hv]
          norm_num
        | cons y tl2 =>
          have htl : printArrTail (JsonList.cons y tl2) ++ (93 :: rest) =
              44 :: (printArrBody (JsonList.cons y tl2) ++ (93 :: rest)) := by
            show (44 :: (printJson y ++ printArrTail tl2)) ++ (93 :: rest) = _
            simp [printArrBody, List.append_assoc]
        -- continue with the comma step
          rw [htl] at hv ⊢
          rw [parseArrItems_step f _ x 44 _ hv, if_pos rfl,
            ihA (JsonList.cons y tl2) rest (by simp)
              (by have h1 := jsize_pos x
                  simp only [jsizeList] at hj ⊢
                  omega)]
          rfl
    · cases kvs with
      | nil => exact absurd rfl hne
      | cons k v2 tl =>
        have hv2 : jsize v2 ≤ f := by simp only [jsizeObj] at hj; omega
        have hshape : printObjBody (JsonObj.cons k v2 tl) ++ (125 :: rest) =
            34 :: (printStrBody k ++
              (34 :: (58 :: (printJson v2 ++ (printObjTail tl ++ (125 :: rest)))))) := by
          show ((34 :: (printStrBody k ++ [34])) ++
              (58 :: (printJson v2 ++ printObjTail tl))) ++ (125 :: rest) = _
          simp [List.append_assoc]
        rw [hshape]
        have hk : parseStrBody
            ((printStrBody k ++
              (34 :: (58 :: (printJson v2 ++ (printObjTail tl ++ (125 :: rest)))))).length + 1)
            (printStrBody k ++
              (34 :: (58 :: (printJson v2 ++ (printObjTail tl ++ (125 :: rest)))))) =
            some (k, 58 :: (printJson v2 ++ (printObjTail tl ++ (125 :: rest)))) := by
          apply parseStrBody_print
          have h1 := printStrBody_length k
          simp only [List.length_append, List.length_cons]
          omega
        have hv := ihV v2 (printObjTail tl ++ (125 :: rest)) hv2 (restSafe_objSep tl rest)
        cases tl with
        | nil =>
          rw [parseObjItems_step f _ k _ hk v2 125 rest hv]
          norm_num
        | cons k2 v3 tl2 =>
          have htl : printObjTail (JsonObj.cons k2 v3 tl2) ++ (125 :: rest) =
              44 :: (printObjBody (JsonObj.cons k2 v3 tl2) ++ (125 :: rest)) := by
            show (44 :: (printStr k2 ++ 58 :: (printJson v3 ++ printObjTail tl2))) ++
                (125 :: rest) = _
            simp [printObjBody, List.append_assoc]
          rw [htl] at hk hv ⊢
          rw [parseObjItems_step f _ k _ hk v2 44 _ hv, if_pos rfl,
            ihO (JsonObj.cons k2 v3 tl2) rest (by simp)
              (by have h1 := jsize_pos v2
                  simp only [jsizeObj] at hj ⊢
                  omega)]
          rfl


/-! ## Fuel adequacy: the printed form is at least as long as the fuel
measure, so the parser called with the input length as fuel succeeds. -/

mutual
theorem jsize_le_print : ∀ v : Json, jsize v ≤ (printJson v).length
  | .null => by simp [jsize, printJson]
  | .bool b => by cases b <;> simp [jsize, printJson]
  | .num n => by
    obtain ⟨c, t, hct, -⟩ := printInt_head n
    simp [jsize, printJson, hct]
  | .str s => by simp [jsize, printJson, printStr]
  | .arr .nil => by simp [jsize, jsizeList, printJson, printArrBody]
  | .arr (.cons x tl) => by
    have h1 := jsize_le_print x
    have h2 := jsizeList_le_tail tl
    simp only [jsize, jsizeList, printJson, printArrBody, List.length_cons,
      List.length_append]
    omega
  | .obj .nil => by simp [jsize, jsizeObj, printJson, printObjBody]
  | .obj (.cons k v tl) => by
    have h1 := jsize_le_print v
    have h2 := jsizeObj_le_tail tl
    simp only [jsize, jsizeObj, printJson, printObjBody, printStr, List.length_cons,
      List.length_append]
    omega
theorem jsizeList_le_tail : ∀ xs : JsonList, jsizeList xs ≤ (printArrTail xs).length
  | .nil => by simp [jsizeList, printArrTail]
  | .cons x tl => by
    have h1 := jsize_le_print x
    have h2 := jsizeList_le_tail tl
    simp only [jsizeList, printArrTail, List.length_cons, List.length_append]
    omega
theorem jsizeObj_le_tail : ∀ kvs : JsonObj, jsizeObj kvs ≤ (printObjTail kvs).length
  | .nil => by simp [jsizeObj, printObjTail]
  | .cons k v tl => by
    have h1 := jsize_le_print v
    have h2 := jsizeObj_le_tail tl
    simp only [jsizeObj, printObjTail, printStr, List.length_cons, List.length_append]
    omega
end

theorem parseJson_print (v : Json) : parseJson (printJson v) = some v := by
  unfold parseJson
  have h := (parse_print_all ((printJson v).length + 1)).1 v []
    (by have := jsize_le_print v; omega) rfl
  rw [List.append_nil] at h
  rw [h]

/-! ## Message headers (`MsgHeader`) -/

structure MsgHeader where
  MsgID : List Nat
  Username : List Nat
  Session : List Nat
  MsgType : List Nat
deriving DecidableEq

instance : Inhabited MsgHeader := ⟨⟨[], [], [], []⟩⟩

def keyMsgID : List Nat := strBytes "msg_id"
def keyUsername : List Nat := strBytes "username"
def keySession : List Nat := strBytes "session"
def keyMsgType : List Nat := strBytes "msg_type"

/-- `json.Marshal` of the `MsgHeader` struct: the tagged fields in
declaration order, all strings. -/
def headerJson (h : MsgHeader) : Json :=
  .obj (.cons keyMsgID (.str h.MsgID)
    (.cons keyUsername (.str h.Username)
      (.cons keySession (.str h.Session)
        (.cons keyMsgType (.str h.MsgType) .nil))))

def marshalHeader (h : MsgHeader) : List Nat := printJson (headerJson h)

/-- Last binding of a key in an object (on duplicate keys `json.Unmarshal`
into a struct keeps the last value). -/
def objLookupLast (kvs : JsonObj) (k : List Nat) : Option Json :=
  match kvs with
  | .nil => none
  | .cons k2 v tl =>
    match objLookupLast tl k with
    | some r => some r
    | none => if k2 = k then some v else none

/-- One string field of the header object: missing means the zero value,
a non-string value is an error. -/
def strField (kvs : JsonObj) (k : List Nat) : Option (List Nat) :=
  match objLookupLast kvs k with
  | none => some []
  | some (.str s) => some s
  | some _ => none

/-- `json.Unmarshal` into the `MsgHeader` struct shape (simplified: a
non-string field value fails the whole header rather than assigning the
other fields). -/
def decodeHeader (v : Json) : Option MsgHeader :=
  match v with
  | .obj kvs =>
    match strField kvs keyMsgID, strField kvs keyUsername,
          strField kvs keySession, strField kvs keyMsgType with
    | some a, some b, some c, some d => some ⟨a, b, c, d⟩
    | _, _, _, _ => none
  | _ => none

theorem decodeHeader_headerJson (h : MsgHeader) : decodeHeader (headerJson h) = some h := by
  rfl

/-! ## Metadata maps (`map[string]` of JSON values) -/

def objHasKey (kvs : JsonObj) (k : List Nat) : Bool :=
  match kvs with
  | .nil => false
  | .cons k2 _ tl => k2 = k || objHasKey tl k

/-- Go map assignment: overwrite in place, or append a fresh key. -/
def mapInsert (kvs : JsonObj) (k : List Nat) (v : Json) : JsonObj :=
  match kvs with
  | .nil => .cons k v .nil
  | .cons k2 v2 tl => if k2 = k then .cons k2 v tl else .cons k2 v2 (mapInsert tl k v)

def buildMapAux (acc : JsonObj) : JsonObj → JsonObj
  | .nil => acc
  | .cons k v tl => buildMapAux (mapInsert acc k v) tl

/-- The map built by inserting the parsed members in textual order. -/
def buildMap (kvs : JsonObj) : JsonObj := buildMapAux .nil kvs

/-- `json.Unmarshal` into a nilable map: `null` leaves the map nil, an
object builds the map, anything else is an error. -/
def decodeMeta : Json → Option (Option JsonObj)
  | .null => some none
  | .obj kvs => some (some (buildMap kvs))
  | _ => none

def objAppend : JsonObj → JsonObj → JsonObj
  | .nil, ys => ys
  | .cons k v tl, ys => .cons k v (objAppend tl ys)

def objKeys : JsonObj → List (List Nat)
  | .nil => []
  | .cons k _ tl => k :: objKeys tl

theorem objAppend_nil_right : ∀ kvs : JsonObj, objAppend kvs JsonObj.nil = kvs
  | .nil => rfl
  | .cons k v tl => by rw [objAppend, objAppend_nil_right tl]

theorem objAppend_assoc : ∀ a b c : JsonObj,
    objAppend (objAppend a b) c = objAppend a (objAppend b c)
  | .nil, b, c => rfl
  | .cons k v tl, b, c => by
    simp only [objAppend]
    rw [objAppend_assoc tl b c]

theorem mapInsert_fresh : ∀ (acc : JsonObj) (k : List Nat) (v : Json),
    objHasKey acc k = false →
    mapInsert acc k v = objAppend acc (JsonObj.cons k v JsonObj.nil)
  | .nil, k, v, _ => rfl
  | .cons k2 v2 tl, k, v, h => by
    simp only [objHasKey, Bool.or_eq_false_iff, decide_eq_false_iff_not] at h
    simp only [mapInsert, objAppend, if_neg h.1]
    rw [mapInsert_fresh tl k v h.2]

theorem objHasKey_insert : ∀ (acc : JsonObj) (k k2 : List Nat) (v : Json),
    objHasKey (mapInsert acc k v) k2 = (objHasKey acc k2 || decide (k = k2))
  | .nil, k, k2, v => by simp [mapInsert, objHasKey]
  | .cons k3 v3 tl, k, k2, v => by
    by_cases h : k3 = k
    · subst h
      simp only [mapInsert, if_pos rfl, objHasKey]
      by_cases h2 : k3 = k2
      · subst h2; simp
      · simp [h2]
    · simp only [mapInsert, if_neg h, objHasKey, objHasKey_insert tl k k2 v, Bool.or_assoc]

theorem buildMapAux_fresh : ∀ (kvs acc : JsonObj),
    (∀ k ∈ objKeys kvs, objHasKey acc k = false) → (objKeys kvs).Nodup →
    buildMapAux acc kvs = objAppend acc kvs
  | .nil, acc, _, _ => (objAppend_nil_right acc).symm
  | .cons k v tl, acc, hfresh, hnodup => by
    rw [buildMapAux]
    have hk : objHasKey acc k = false := hfresh k (by simp [objKeys])
    have hnd := (List.nodup_cons.mp (by simpa [objKeys] using hnodup))
    have hfresh2 : ∀ k2 ∈ objKeys tl, objHasKey (mapInsert acc k v) k2 = false := by
      intro k2 hk2
      rw [objHasKey_insert]
      have h1 : objHasKey acc k2 = false := hfresh k2 (by simp [objKeys, hk2])
      have h2 : ¬ (k = k2) := fun he => hnd.1 (he ▸ hk2)
      simp [h1, h2]
    rw [buildMapAux_fresh tl (mapInsert acc k v) hfresh2 hnd.2]
    rw [mapInsert_fresh acc k v hk, objAppend_assoc]
    rfl

theorem buildMap_nodup (kvs : JsonObj) (h : (objKeys kvs).Nodup) : buildMap kvs = kvs := by
  unfold buildMap
  rw [buildMapAux_fresh kvs JsonObj.nil (fun k _ => rfl) h]
  rfl

/-! ## Composed messages and the wire codec (`messages.go`) -/

/-- A Go `interface` content value: either JSON-representable or a value
`json.Marshal` rejects (a channel, a function, ...). -/
inductive GoValue where
  | json : Json → GoValue
  | unserializable : GoValue
deriving DecidableEq

structure ComposedMsg where
  Header : MsgHeader
  ParentHeader : MsgHeader
  Metadata : Option JsonObj
  Content : GoValue
deriving DecidableEq

instance : Inhabited ComposedMsg := ⟨⟨default, default, none, .json .null⟩⟩

inductive Panic where
  | indexOutOfRange
deriving DecidableEq

inductive SigErr where
  | invalidSignature
deriving DecidableEq

/-- Index of the first delimiter frame, if any. -/
def findDelim : List (List Nat) → Option Nat
  | [] => none
  | f :: rest => if f = delimiterBytes then some 0 else (findDelim rest).map (· + 1)

/-- The four `json.Unmarshal` lines of `WireMsgToComposedMsg`: they start
from the zero-value message and their errors are discarded, so a failed
field keeps its zero value. -/
def decodeFields (hFrame pFrame mFrame cFrame : List Nat) : ComposedMsg :=
  { Header := ((parseJson hFrame).bind decodeHeader).getD default,
    ParentHeader := ((parseJson pFrame).bind decodeHeader).getD default,
    Metadata := ((parseJson mFrame).bind decodeMeta).getD none,
    Content := ((parseJson cFrame).map GoValue.json).getD (.json .null) }

/-- The body of `WireMsgToComposedMsg` once the delimiter scan stopped at
index `i`: the length guard stands for Go's unchecked accesses
`msgparts[i+1]` … `msgparts[i+5]` (and the slice `msgparts[i+2:i+6]`),
which panic when the tail is short. -/
def wireMsgDecodeAt (msgparts : List (List Nat)) (signkey : List Nat) (i : Nat) :
    Except Panic (ComposedMsg × Option (List (List Nat)) × Option SigErr) :=
  let identities := msgparts.take i
  if msgparts.length < i + 6 then .error .indexOutOfRange
  else
    let sigFrame := msgparts.getD (i + 1) []
    let hFrame := msgparts.getD (i + 2) []
    let pFrame := msgparts.getD (i + 3) []
    let mFrame := msgparts.getD (i + 4) []
    let cFrame := msgparts.getD (i + 5) []
    if signkey ≠ [] ∧
        constantTimeCompare (hmacSha256 signkey (hFrame ++ (pFrame ++ (mFrame ++ cFrame))))
          (decodeHexGo sigFrame) = false then
      .ok (default, none, some .invalidSignature)
    else
      .ok (decodeFields hFrame pFrame mFrame cFrame, some identities, none)

/-- `WireMsgToComposedMsg`. Go's unchecked indexing is modelled by
`Except Panic`: `.error .indexOutOfRange` is the runtime panic the
unbounded delimiter scan or a short frame tail causes. The `.ok` triple
mirrors Go's `(ComposedMsg, [][]byte, error)` returns: on a signature
failure the zero-value message, nil identities and the
`InvalidSignatureError`; otherwise the decoded message, the identity
frames and no error. -/
def wireMsgToComposedMsg (msgparts : List (List Nat)) (signkey : List Nat) :
    Except Panic (ComposedMsg × Option (List (List Nat)) × Option SigErr) :=
  match findDelim msgparts with
  | none => .error .indexOutOfRange
  | some i => wireMsgDecodeAt msgparts signkey i

inductive EncErr where
  | contentMarshal
deriving DecidableEq

/-- `ComposedMsg.ToWireMsg`. The receiver is a value, so the nil-metadata
substitution is local to the call; of the four fields only `Content` (an
`interface` value) can fail `json.Marshal`, returning the partially
filled frame slice together with the wrapped error, as the source does. -/
def toWireMsg (msg : ComposedMsg) (signkey : List Nat) :
    List (List Nat) × Option EncErr :=
  let header := marshalHeader msg.Header
  let parentHeader := marshalHeader msg.ParentHeader
  let meta :=
    match msg.Metadata with
    | none => JsonObj.nil
    | some m => m
  let metadata := printJson (.obj meta)
  match msg.Content with
  | .unserializable => ([[], header, parentHeader, metadata, []], some .contentMarshal)
  | .json v =>
    let content := printJson v
    let sig :=
      if signkey = [] then []
      else encodeHex (hmacSha256 signkey (header ++ (parentHeader ++ (metadata ++ content))))
    ([sig, header, parentHeader, metadata, content], none)

/-- `MsgReceipt.SendResponse`: the identities and the delimiter are handed
to the socket first; then the message is encoded and signed. On an encode
error the source calls `log.Fatalln`, modelled as the `some` error
component (process termination); otherwise the five frames follow. The
first component lists the frames handed to the transport. -/
def sendResponse (identities : List (List Nat)) (signkey : List Nat) (msg : ComposedMsg) :
    List (List Nat) × Option EncErr :=
  let pre := identities ++ [delimiterBytes]
  match toWireMsg msg signkey with
  | (_, some e) => (pre, some e)
  | (parts, none) => (pre ++ parts, none)

/-! ## Response building (`NewMsg`, `gouuid`) -/

/-- The 16 bytes of a `gouuid.UUID`. -/
structure UUID where
  b0 : Nat
  b1 : Nat
  b2 : Nat
  b3 : Nat
  b4 : Nat
  b5 : Nat
  b6 : Nat
  b7 : Nat
  b8 : Nat
  b9 : Nat
  b10 : Nat
  b11 : Nat
  b12 : Nat
  b13 : Nat
  b14 : Nat
  b15 : Nat
deriving DecidableEq

/-- All sixteen bytes are in range. -/
def uuidBytesLt (u : UUID) : Prop :=
  u.b0 < 256 ∧ u.b1 < 256 ∧ u.b2 < 256 ∧ u.b3 < 256 ∧ u.b4 < 256 ∧ u.b5 < 256 ∧
  u.b6 < 256 ∧ u.b7 < 256 ∧ u.b8 < 256 ∧ u.b9 < 256 ∧ u.b10 < 256 ∧ u.b11 < 256 ∧
  u.b12 < 256 ∧ u.b13 < 256 ∧ u.b14 < 256 ∧ u.b15 < 256

instance (u : UUID) : Decidable (uuidBytesLt u) := by
  unfold uuidBytesLt
  infer_instance

/-- `uuid.NewV4` after drawing 16 random bytes: set the RFC 4122 variant
bits on byte 8 and version 4 on byte 6, leaving 122 free random bits. -/
def uuidV4 (r : UUID) : UUID :=
  { r with b8 := (r.b8 ||| 128) &&& 191, b6 := (r.b6 &&& 15) ||| 64 }

/-- `UUID.String`: lowercase hex in the 8-4-4-4-12 dashed format. -/
def uuidString (u : UUID) : List Nat :=
  encodeHex [u.b0, u.b1, u.b2, u.b3] ++ 45 ::
  (encodeHex [u.b4, u.b5] ++ 45 ::
  (encodeHex [u.b6, u.b7] ++ 45 ::
  (encodeHex [u.b8, u.b9] ++ 45 ::
  encodeHex [u.b10, u.b11, u.b12, u.b13, u.b14, u.b15])))

inductive UuidErr where
  | randFailure
deriving DecidableEq

/-- `NewMsg`: builds the reply to a parent message. The outcome of the
randomness source backing `uuid.NewV4` is a parameter; on its failure
the source calls `log.Fatalln`, modelled as `.error` (process
termination). -/
def newMsg (msgType : List Nat) (parent : ComposedMsg) (rand : Except Unit UUID) :
    Except UuidErr ComposedMsg :=
  match rand with
  | .error _ => .error .randFailure
  | .ok r =>
    .ok { Header := { MsgID := uuidString (uuidV4 r),
                      Username := parent.Header.Username,
                      Session := parent.Header.Session,
                      MsgType := msgType },
          ParentHeader := parent.Header,
          Metadata := none,
          Content := .json .null }

/-! ## Frame-scan and decode-shape lemmas -/

theorem findDelim_none : ∀ (parts : List (List Nat)),
    (∀ f ∈ parts, f ≠ delimiterBytes) → findDelim parts = none
  | [], _ => rfl
  | f :: rest, h => by
    have hf : ¬ (f = delimiterBytes) := h f (List.mem_cons_self _ _)
    simp only [findDelim, if_neg hf,
      findDelim_none rest (fun g hg => h g (List.mem_cons_of_mem _ hg)), Option.map_none']

theorem findDelim_append (pre rest : List (List Nat))
    (hpre : ∀ f ∈ pre, f ≠ delimiterBytes) :
    findDelim (pre ++ delimiterBytes :: rest) = some pre.length := by
  induction pre with
  | nil => simp [findDelim]
  | cons f pre2 ih =>
    have hf : ¬ (f = delimiterBytes) := hpre f (List.mem_cons_self _ _)
    rw [List.cons_append, findDelim, if_neg hf,
      ih (fun g hg => hpre g (List.mem_cons_of_mem _ hg))]
    rfl

theorem getD_cons_add (pre : List (List Nat)) (x : List Nat) (post : List (List Nat))
    (j : Nat) :
    (pre ++ x :: post).getD (pre.length + j) [] = (x :: post).getD j [] := by
  rw [List.getD_append_right _ _ _ _ (by omega)]
  congr 1
  omega

/-- No delimiter frame anywhere: the scan walks past the end (Go panics). -/
theorem wireMsg_noDelim (parts : List (List Nat)) (key : List Nat)
    (h : ∀ f ∈ parts, f ≠ delimiterBytes) :
    wireMsgToComposedMsg parts key = .error .indexOutOfRange := by
  simp only [wireMsgToComposedMsg, findDelim_none parts h]

/-- A delimiter with fewer than five frames after the signature slot:
the unchecked accesses run past the end (Go panics). -/
theorem wireMsg_short (pre post : List (List Nat)) (key : List Nat)
    (hpre : ∀ f ∈ pre, f ≠ delimiterBytes) (hshort : post.length < 5) :
    wireMsgToComposedMsg (pre ++ delimiterBytes :: post) key = .error .indexOutOfRange := by
  simp only [wireMsgToComposedMsg, findDelim_append pre post hpre]
  unfold wireMsgDecodeAt
  rw [if_pos (by simp only [List.length_append, List.length_cons]; omega)]

/-- The full shape of a decode on a well-delimited frame sequence. -/
theorem wireMsg_shape (pre : List (List Nat)) (sig h p m c : List Nat)
    (rest : List (List Nat)) (key : List Nat)
    (hpre : ∀ f ∈ pre, f ≠ delimiterBytes) :
    wireMsgToComposedMsg (pre ++ delimiterBytes :: sig :: h :: p :: m :: c :: rest) key =
      if key ≠ [] ∧
          constantTimeCompare (hmacSha256 key (h ++ (p ++ (m ++ c))))
            (decodeHexGo sig) = false
      then .ok (default, none, some .invalidSignature)
      else .ok (decodeFields h p m c, some pre, none) := by
  simp only [wireMsgToComposedMsg, findDelim_append pre _ hpre]
  unfold wireMsgDecodeAt
  rw [if_neg (by simp only [List.length_append, List.length_cons]; omega)]
  have h1 : (pre ++ delimiterBytes :: sig :: h :: p :: m :: c :: rest).getD
      (pre.length + 1) [] = sig := getD_cons_add pre _ _ 1
  have h2 : (pre ++ delimiterBytes :: sig :: h :: p :: m :: c :: rest).getD
      (pre.length + 2) [] = h := getD_cons_add pre _ _ 2
  have h3 : (pre ++ delimiterBytes :: sig :: h :: p :: m :: c :: rest).getD
      (pre.length + 3) [] = p := getD_cons_add pre _ _ 3
  have h4 : (pre ++ delimiterBytes :: sig :: h :: p :: m :: c :: rest).getD
      (pre.length + 4) [] = m := getD_cons_add pre _ _ 4
  have h5 : (pre ++ delimiterBytes :: sig :: h :: p :: m :: c :: rest).getD
      (pre.length + 5) [] = c := getD_cons_add pre _ _ 5
  have h6 : (pre ++ delimiterBytes :: sig :: h :: p :: m :: c :: rest).take pre.length =
      pre := by
    rw [List.take_append_of_le_length (by omega)]
    exact List.take_length pre
  rw [h1, h2, h3, h4, h5, h6]

/-! ## Encode/decode round-trip lemmas -/

theorem toWireMsg_json (m : ComposedMsg) (k : List Nat) (v : Json) (md : JsonObj)
    (hc : m.Content = .json v) (hm : m.Metadata = some md) :
    toWireMsg m k =
      ([(if k = [] then []
         else encodeHex (hmacSha256 k (marshalHeader m.Header ++
           (marshalHeader m.ParentHeader ++ (printJson (.obj md) ++ printJson v))))),
        marshalHeader m.Header, marshalHeader m.ParentHeader,
        printJson (.obj md), printJson v], none) := by
  unfold toWireMsg
  rw [hm, hc]

theorem decodeFields_print (h p : MsgHeader) (md : JsonObj) (v : Json)
    (hnodup : (objKeys md).Nodup) :
    decodeFields (marshalHeader h) (marshalHeader p) (printJson (.obj md)) (printJson v) =
      ⟨h, p, some md, .json v⟩ := by
  unfold decodeFields marshalHeader
  rw [parseJson_print, parseJson_print, parseJson_print, parseJson_print]
  simp only [Option.some_bind, Option.map_some', Option.getD_some,
    decodeHeader_headerJson, decodeMeta]
  rw [buildMap_nodup md hnodup]

theorem decode_encode (m : ComposedMsg) (k : List Nat) (v : Json) (md : JsonObj)
    (hc : m.Content = .json v) (hm : m.Metadata = some md)
    (hnodup : (objKeys md).Nodup) :
    wireMsgToComposedMsg (delimiterBytes :: (toWireMsg m k).1) k =
      .ok (m, some [], none) := by
  rw [toWireMsg_json m k v md hc hm]
  show wireMsgToComposedMsg
    ([] ++ delimiterBytes :: _ :: marshalHeader m.Header :: marshalHeader m.ParentHeader ::
      printJson (.obj md) :: printJson v :: []) k = _
  rw [wireMsg_shape [] _ _ _ _ _ [] k (by simp)]
  by_cases hk : k = []
  · subst hk
    rw [if_neg (by simp)]
    rw [decodeFields_print _ _ _ _ hnodup, ← hm, ← hc]
  · rw [if_neg hk]
    rw [if_neg (by
      rintro ⟨-, hfalse⟩
      rw [decodeHexGo_encodeHex (hmacSha256_lt k _)] at hfalse
      rw [(constantTimeCompare_iff _ _).mpr rfl] at hfalse
      cases hfalse)]
    rw [decodeFields_print _ _ _ _ hnodup, ← hm, ← hc]

/-! ## UUID textual-form lemmas -/

theorem encodeHex_inj {xs ys : List Nat} (hx : ∀ b ∈ xs, b < 256) (hy : ∀ b ∈ ys, b < 256)
    (h : encodeHex xs = encodeHex ys) : xs = ys := by
  have h2 := congrArg decodeHexGo h
  rwa [decodeHexGo_encodeHex hx, decodeHexGo_encodeHex hy] at h2

theorem uuidV4_bounds (r : UUID) (h : uuidBytesLt r) : uuidBytesLt (uuidV4 r) := by
  obtain ⟨h0, h1, h2, h3, h4, h5, h6, h7, h8, h9, h10, h11, h12, h13, h14, h15⟩ := h
  refine ⟨h0, h1, h2, h3, h4, h5, ?_, h7, ?_, h9, h10, h11, h12, h13, h14, h15⟩
  · show (r.b6 &&& 15) ||| 64 < 256
    have ha : r.b6 &&& 15 < 256 := lt_of_le_of_lt Nat.and_le_right (by norm_num)
    have : (r.b6 &&& 15) ||| 64 < 2 ^ 8 := Nat.or_lt_two_pow (by norm_num [ha]) (by norm_num)
    simpa using this
  · show (r.b8 ||| 128) &&& 191 < 256
    exact lt_of_le_of_lt Nat.and_le_right (by norm_num)

theorem uuidString_inj (u u' : UUID) (hu : uuidBytesLt u) (hu' : uuidBytesLt u')
    (h : uuidString u = uuidString u') : u = u' := by
  obtain ⟨g0, g1, g2, g3, g4, g5, g6, g7, g8, g9, g10, g11, g12, g13, g14, g15⟩ := hu
  obtain ⟨f0, f1, f2, f3, f4, f5, f6, f7, f8, f9, f10, f11, f12, f13, f14, f15⟩ := hu'
  unfold uuidString at h
  obtain ⟨e1, h⟩ := List.append_inj h rfl
  obtain ⟨-, h⟩ := List.cons.inj h
  obtain ⟨e2, h⟩ := List.append_inj h rfl
  obtain ⟨-, h⟩ := List.cons.inj h
  obtain ⟨e3, h⟩ := List.append_inj h rfl
  obtain ⟨-, h⟩ := List.cons.inj h
  obtain ⟨e4, h⟩ := List.append_inj h rfl
  obtain ⟨-, e5⟩ := List.cons.inj h
  have k1 := encodeHex_inj
    (by intro b hb; simp only [List.mem_cons, List.not_mem_nil, or_false] at hb
        rcases hb with rfl | rfl | rfl | rfl <;> assumption)
    (by intro b hb; simp only [List.mem_cons, List.not_mem_nil, or_false] at hb
        rcases hb with rfl | rfl | rfl | rfl <;> assumption) e1
  have k2 := encodeHex_inj
    (by intro b hb; simp only [List.mem_cons, List.not_mem_nil, or_false] at hb
        rcases hb with rfl | rfl <;> assumption)
    (by intro b hb; simp only [List.mem_cons, List.not_mem_nil, or_false] at hb
        rcases hb with rfl | rfl <;> assumption) e2
  have k3 := encodeHex_inj
    (by intro b hb; simp only [List.mem_cons, List.not_mem_nil, or_false] at hb
        rcases hb with rfl | rfl <;> assumption)
    (by intro b hb; simp only [List.mem_cons, List.not_mem_nil, or_false] at hb
        rcases hb with rfl | rfl <;> assumption) e3
  have k4 := encodeHex_inj
    (by intro b hb; simp only [List.mem_cons, List.not_mem_nil, or_false] at hb
        rcases hb with rfl | rfl <;> assumption)
    (by intro b hb; simp only [List.mem_cons, List.not_mem_nil, or_false] at hb
        rcases hb with rfl | rfl <;> assumption) e4
  have k5 := encodeHex_inj
    (by intro b hb; simp only [List.mem_cons, List.not_mem_nil, or_false] at hb
        rcases hb with rfl | rfl | rfl | rfl | rfl | rfl <;> assumption)
    (by intro b hb; simp only [List.mem_cons, List.not_mem_nil, or_false] at hb
        rcases hb with rfl | rfl | rfl | rfl | rfl | rfl <;> assumption) e5
  simp only [List.cons.injEq, and_true] at k1 k2 k3 k4 k5
  obtain ⟨q0, q1, q2, q3⟩ := k1
  obtain ⟨q4, q5⟩ := k2
  obtain ⟨q6, q7⟩ := k3
  obtain ⟨q8, q9⟩ := k4
  obtain ⟨q10, q11, q12, q13, q14, q15⟩ := k5
  cases u
  cases u'
  simp_all

instance {e a : Type} [DecidableEq e] [DecidableEq a] : DecidableEq (Except e a) :=
  fun x y =>
  match x, y with
  | .ok v, .ok w => decidable_of_iff (v = w) (by simp)
  | .error v, .error w => decidable_of_iff (v = w) (by simp)
  | .ok _, .error _ => isFalse (by simp)
  | .error _, .ok _ => isFalse (by simp)

/-! ## Claim theorems -/

/-- Claim C1: the spec demands that a frame sequence with no delimiter
frame fail with MalformedFrames and never cause an out-of-bounds access.
The code's scan `for string(msgparts[i]) != "<IDS|MSG>" { i++ }` is
unbounded: on every sequence without a delimiter frame it reads past the
end and panics with an index-out-of-range error instead. -/
theorem claim_c1_no_delimiter_panics (msgparts : List (List Nat)) (key : List Nat)
    (h : ∀ f ∈ msgparts, f ≠ delimiterBytes) :
    wireMsgToComposedMsg msgparts key = .error .indexOutOfRange :=
  wireMsg_noDelim msgparts key h

theorem claim_c1_witness :
    (∀ f ∈ [[120]], f ≠ delimiterBytes) ∧
    wireMsgToComposedMsg [[120]] [] = .error .indexOutOfRange :=
  ⟨by decide, claim_c1_no_delimiter_panics [[120]] [] (by decide)⟩

/-- Claim C2: with a non-empty signing key, when the hex-decoded signature
frame differs from the HMAC-SHA256 MAC over the four signed-region frames
(header, parent header, metadata, content, concatenated in that order),
decoding returns the invalid-signature error together with the zero-value
message and nil identities, so no partially constructed content reaches
the caller. The comparison the code uses is hmac.Equal, i.e.
subtle.ConstantTimeCompare, modelled by constantTimeCompare. -/
theorem claim_c2_invalid_signature (pre : List (List Nat)) (sig h p m c : List Nat)
    (rest : List (List Nat)) (key : List Nat)
    (hpre : ∀ f ∈ pre, f ≠ delimiterBytes) (hkey : key ≠ [])
    (hsig : decodeHexGo sig ≠ hmacSha256 key (h ++ (p ++ (m ++ c)))) :
    wireMsgToComposedMsg (pre ++ delimiterBytes :: sig :: h :: p :: m :: c :: rest) key =
      .ok (default, none, some .invalidSignature) := by
  have hctc : constantTimeCompare (hmacSha256 key (h ++ (p ++ (m ++ c))))
      (decodeHexGo sig) = false := by
    rcases Bool.eq_false_or_eq_true
        (constantTimeCompare (hmacSha256 key (h ++ (p ++ (m ++ c))))
          (decodeHexGo sig)) with hb | hb
    · exact absurd ((constantTimeCompare_iff _ _).mp hb).symm hsig
    · exact hb
  rw [wireMsg_shape pre sig h p m c rest key hpre, if_pos ⟨hkey, hctc⟩]

theorem claim_c2_witness :
    ([107] : List Nat) ≠ [] ∧
    decodeHexGo [] ≠
      hmacSha256 [107] ([123, 125] ++ ([123, 125] ++ ([123, 125] ++ [123, 125]))) ∧
    wireMsgToComposedMsg
      [delimiterBytes, [], [123, 125], [123, 125], [123, 125], [123, 125]] [107] =
      .ok (default, none, some .invalidSignature) := by
  have hsig : decodeHexGo [] ≠
      hmacSha256 [107] ([123, 125] ++ ([123, 125] ++ ([123, 125] ++ [123, 125]))) := by
    intro he
    have hlen := congrArg List.length he
    rw [hmacSha256_length] at hlen
    simp [decodeHexGo] at hlen
  exact ⟨by decide, hsig,
    claim_c2_invalid_signature [] [] [123, 125] [123, 125] [123, 125] [123, 125] [] [107]
      (by decide) (by decide) hsig⟩

/-- Claim C3 counterexample: the round trip is not exact for every
ComposedMsg. With the empty key and the zero-value message, whose
Metadata is nil, encoding substitutes the empty mapping, and decoding
yields a message whose Metadata is the (non-nil) empty mapping, not nil. -/
theorem claim_c3_counterexample :
    wireMsgToComposedMsg (delimiterBytes :: (toWireMsg (default : ComposedMsg) []).1) [] =
      .ok ({ (default : ComposedMsg) with Metadata := some JsonObj.nil }, some [], none) ∧
    (default : ComposedMsg).Metadata = none ∧
    ({ (default : ComposedMsg) with Metadata := some JsonObj.nil } : ComposedMsg) ≠
      default := by
  refine ⟨by decide, rfl, by decide⟩

/-- Claim C3 (amended): for every ComposedMsg whose Metadata is present
(a map, with its keys distinct as Go maps guarantee) and whose Content is
a JSON-representable value, and every signing key including the empty one,
encoding with ToWireMsg and decoding the delimited frames with
WireMsgToComposedMsg under the same key reproduces the message exactly in
header, parent header, metadata and content. -/
theorem claim_c3_roundtrip (m : ComposedMsg) (k : List Nat) (v : Json) (md : JsonObj)
    (hc : m.Content = .json v) (hm : m.Metadata = some md)
    (hnodup : (objKeys md).Nodup) :
    wireMsgToComposedMsg (delimiterBytes :: (toWireMsg m k).1) k =
      .ok (m, some [], none) :=
  decode_encode m k v md hc hm hnodup

theorem claim_c3_witness :
    ({ Header := ⟨strBytes "a", strBytes "u", strBytes "s", strBytes "t"⟩,
       ParentHeader := default,
       Metadata := some (JsonObj.cons (strBytes "x") (Json.num 1) JsonObj.nil),
       Content := .json (.num 1) } : ComposedMsg).Content = .json (.num 1) ∧
    ({ Header := ⟨strBytes "a", strBytes "u", strBytes "s", strBytes "t"⟩,
       ParentHeader := default,
       Metadata := some (JsonObj.cons (strBytes "x") (Json.num 1) JsonObj.nil),
       Content := .json (.num 1) } : ComposedMsg).Metadata =
      some (JsonObj.cons (strBytes "x") (Json.num 1) JsonObj.nil) ∧
    (objKeys (JsonObj.cons (strBytes "x") (Json.num 1) JsonObj.nil)).Nodup ∧
    wireMsgToComposedMsg
      (delimiterBytes ::
        (toWireMsg
          { Header := ⟨strBytes "a", strBytes "u", strBytes "s", strBytes "t"⟩,
            ParentHeader := default,
            Metadata := some (JsonObj.cons (strBytes "x") (Json.num 1) JsonObj.nil),
            Content := .json (.num 1) } (strBytes "s3cr3t")).1) (strBytes "s3cr3t") =
      .ok ({ Header := ⟨strBytes "a", strBytes "u", strBytes "s", strBytes "t"⟩,
             ParentHeader := default,
             Metadata := some (JsonObj.cons (strBytes "x") (Json.num 1) JsonObj.nil),
             Content := .json (.num 1) }, some [], none) :=
  ⟨rfl, rfl, by decide,
    claim_c3_roundtrip _ (strBytes "s3cr3t") (Json.num 1)
      (JsonObj.cons (strBytes "x") (Json.num 1) JsonObj.nil) rfl rfl (by decide)⟩

/-- Claim C4: the spec demands MalformedFrames when fewer than five frames
follow the delimiter. The code performs no length check: with the
delimiter present and fewer than five frames after it, the accesses
msgparts[i+1..i+5] (and the slice msgparts[i+2:i+6]) run past the end and
panic with an index-out-of-range error instead. (The other half of the
claim, that five frames are consumed and extra frames are tolerated,
does hold; see the C7/C8 theorems, whose statements allow arbitrary
trailing frames.) -/
theorem claim_c4_short_tail_panics (pre post : List (List Nat)) (key : List Nat)
    (hpre : ∀ f ∈ pre, f ≠ delimiterBytes) (hshort : post.length < 5) :
    wireMsgToComposedMsg (pre ++ delimiterBytes :: post) key = .error .indexOutOfRange :=
  wireMsg_short pre post key hpre hshort

theorem claim_c4_witness :
    (∀ f ∈ ([] : List (List Nat)), f ≠ delimiterBytes) ∧
    ([[], [], [], []] : List (List Nat)).length < 5 ∧
    wireMsgToComposedMsg [delimiterBytes, [], [], [], []] [] = .error .indexOutOfRange :=
  ⟨by decide, by decide,
    claim_c4_short_tail_panics [] [[], [], [], []] [] (by decide) (by decide)⟩

/-- Claim C5: the spec demands that a failed deserialization of a
signed-region frame surface as a DecodeError and that no partial message
be returned. The code discards every json.Unmarshal error: on a frame
sequence whose four signed-region frames are all invalid JSON, decoding
returns the zero-value message with the identities and a nil error, the
failures silently ignored. -/
theorem claim_c5_decode_errors_ignored :
    wireMsgToComposedMsg
      [delimiterBytes, [], strBytes "notjson", strBytes "notjson",
       strBytes "notjson", strBytes "notjson"] [] =
      .ok (default, some [], none) := by
  decide


/-- Claim C6: the spec demands that none of the error kinds terminate the
process from within this core. The code violates this on both remaining
paths: SendResponse calls log.Fatalln when ToWireMsg fails (here: a
content value json.Marshal rejects), and NewMsg calls log.Fatalln when
uuid generation fails; both are modelled as the termination outcome
(the `some` error component / the `.error` result), after the identities
and the delimiter were already written to the socket. -/
theorem claim_c6_fatal_termination :
    sendResponse [] [] { (default : ComposedMsg) with Content := .unserializable } =
      ([delimiterBytes], some .contentMarshal) ∧
    newMsg [] default (.error ()) = .error .randFailure := by
  constructor
  · rfl
  · rfl

/-- Claim C7: with the empty signing key the signature branch is skipped
entirely: on a well-delimited frame sequence decoding succeeds (nil
error) whatever the signature frame holds — the result does not mention
the signature frame at all — and extra frames after the five are
tolerated. -/
theorem claim_c7_empty_key_skips (pre : List (List Nat)) (sig h p m c : List Nat)
    (rest : List (List Nat)) (hpre : ∀ f ∈ pre, f ≠ delimiterBytes) :
    wireMsgToComposedMsg (pre ++ delimiterBytes :: sig :: h :: p :: m :: c :: rest) [] =
      .ok (decodeFields h p m c, some pre, none) := by
  rw [wireMsg_shape pre sig h p m c rest [] hpre, if_neg (by simp)]

theorem claim_c7_witness :
    (∀ f ∈ ([] : List (List Nat)), f ≠ delimiterBytes) ∧
    wireMsgToComposedMsg
      [delimiterBytes, [255, 254, 90], [123, 125], [123, 125], [123, 125], [123, 125]] [] =
      .ok (decodeFields [123, 125] [123, 125] [123, 125] [123, 125], some [], none) :=
  ⟨by decide,
    claim_c7_empty_key_skips [] [255, 254, 90] [123, 125] [123, 125] [123, 125] [123, 125]
      [] (by decide)⟩

/-- Claim C8: on a frame sequence containing the delimiter, a decode that
completes (empty key, or a matching signature) returns exactly the frames
strictly before the first delimiter as the identities, byte for byte and
in order; the delimiter and the five frames after it are never among
them. -/
theorem claim_c8_identities_verbatim (pre : List (List Nat)) (sig h p m c : List Nat)
    (rest : List (List Nat)) (key : List Nat)
    (hpre : ∀ f ∈ pre, f ≠ delimiterBytes)
    (hsig : key = [] ∨ decodeHexGo sig = hmacSha256 key (h ++ (p ++ (m ++ c)))) :
    wireMsgToComposedMsg (pre ++ delimiterBytes :: sig :: h :: p :: m :: c :: rest) key =
      .ok (decodeFields h p m c, some pre, none) := by
  rw [wireMsg_shape pre sig h p m c rest key hpre]
  rcases hsig with rfl | hs
  · rw [if_neg (by simp)]
  · rw [if_neg (by
      rintro ⟨-, hfalse⟩
      rw [hs, (constantTimeCompare_iff _ _).mpr rfl] at hfalse
      simp at hfalse)]

theorem claim_c8_witness :
    (∀ f ∈ [[1], [2]], f ≠ delimiterBytes) ∧
    (([] : List Nat) = [] ∨
      decodeHexGo [] =
        hmacSha256 [] ([123, 125] ++ ([123, 125] ++ ([123, 125] ++ [123, 125])))) ∧
    wireMsgToComposedMsg
      [[1], [2], delimiterBytes, [], [123, 125], [123, 125], [123, 125], [123, 125], [7]]
      [] =
      .ok (decodeFields [123, 125] [123, 125] [123, 125] [123, 125], some [[1], [2]],
        none) :=
  ⟨by decide, Or.inl rfl,
    claim_c8_identities_verbatim [[1], [2]] [] [123, 125] [123, 125] [123, 125] [123, 125]
      [[7]] [] (by decide) (Or.inl rfl)⟩

/-- Claim C9: NewMsg copies the parent's full header into parent_header
by value, copies session and username into the new header, sets msg_type
to the given label, and sets msg_id to the textual form of a version-4
UUID built from 16 fresh random bytes; the metadata and content are left
zero. The "at least 122 bits of randomness in standard textual form"
clause is rendered as injectivity: the textual form determines the
post-masking bytes, so all 122 free random bits survive into the text and
distinct draws give distinct msg_ids. -/
theorem claim_c9_newMsg_fields :
    (∀ (t : List Nat) (p : ComposedMsg) (r : UUID),
      newMsg t p (.ok r) =
        .ok { Header := { MsgID := uuidString (uuidV4 r),
                          Username := p.Header.Username,
                          Session := p.Header.Session,
                          MsgType := t },
              ParentHeader := p.Header,
              Metadata := none,
              Content := .json .null }) ∧
    (∀ r r' : UUID, uuidBytesLt r → uuidBytesLt r' →
      uuidString (uuidV4 r) = uuidString (uuidV4 r') → uuidV4 r = uuidV4 r') := by
  constructor
  · intro t p r
    rfl
  · intro r r' hr hr' h
    exact uuidString_inj _ _ (uuidV4_bounds r hr) (uuidV4_bounds r' hr') h

theorem claim_c9_witness :
    uuidBytesLt ⟨0, 1, 2, 3, 4, 5, 6, 7, 8, 9, 10, 11, 12, 13, 14, 15⟩ ∧
    newMsg (strBytes "execute_reply") default
        (.ok ⟨0, 1, 2, 3, 4, 5, 6, 7, 8, 9, 10, 11, 12, 13, 14, 15⟩) =
      .ok { Header := { MsgID := uuidString
                          (uuidV4 ⟨0, 1, 2, 3, 4, 5, 6, 7, 8, 9, 10, 11, 12, 13, 14, 15⟩),
                        Username := (default : ComposedMsg).Header.Username,
                        Session := (default : ComposedMsg).Header.Session,
                        MsgType := strBytes "execute_reply" },
            ParentHeader := (default : ComposedMsg).Header,
            Metadata := none,
            Content := .json .null } ∧
    uuidV4 ⟨0, 1, 2, 3, 4, 5, 6, 7, 8, 9, 10, 11, 12, 13, 14, 15⟩ =
      uuidV4 ⟨0, 1, 2, 3, 4, 5, 6, 7, 8, 9, 10, 11, 12, 13, 14, 15⟩ :=
  ⟨by decide,
    claim_c9_newMsg_fields.1 (strBytes "execute_reply") default
      ⟨0, 1, 2, 3, 4, 5, 6, 7, 8, 9, 10, 11, 12, 13, 14, 15⟩,
    claim_c9_newMsg_fields.2 ⟨0, 1, 2, 3, 4, 5, 6, 7, 8, 9, 10, 11, 12, 13, 14, 15⟩
      ⟨0, 1, 2, 3, 4, 5, 6, 7, 8, 9, 10, 11, 12, 13, 14, 15⟩ (by decide) (by decide) rfl⟩

/-- Claim C10: ToWireMsg has a value receiver, so the caller's message is
unchanged — the embedding is a pure function of the message value, which
is exactly Go's value-copy semantics. When the caller's Metadata is nil,
the empty-mapping substitution is observable only in the produced frames:
encoding equals encoding the copy that carries the empty mapping, and the
metadata frame (index 3) holds the serialized empty object. -/
theorem claim_c10_value_receiver (msg : ComposedMsg) (k : List Nat)
    (hm : msg.Metadata = none) :
    toWireMsg msg k = toWireMsg { msg with Metadata := some JsonObj.nil } k ∧
    (toWireMsg msg k).1.getD 3 [] = [123, 125] := by
  constructor
  · unfold toWireMsg
    rw [hm]
  · cases hcont : msg.Content with
    | json v =>
      unfold toWireMsg
      rw [hm, hcont]
      rfl
    | unserializable =>
      unfold toWireMsg
      rw [hm, hcont]
      rfl

theorem claim_c10_witness :
    (default : ComposedMsg).Metadata = none ∧
    toWireMsg default [] = toWireMsg { (default : ComposedMsg) with
      Metadata := some JsonObj.nil } [] ∧
    (toWireMsg (default : ComposedMsg) []).1.getD 3 [] = [123, 125] :=
  ⟨rfl, (claim_c10_value_receiver default [] rfl).1,
    (claim_c10_value_receiver default [] rfl).2⟩


end Gophernotes
